import Mathlib

/-!
Shallow embedding of the diesel_crud repository (src/src/main.rs): a
SQLite-backed CRUD layer for a `users` table with columns
`id INTEGER PRIMARY KEY AUTOINCREMENT`, `email TEXT NOT NULL UNIQUE`,
`created_at TIMESTAMP NOT NULL DEFAULT CURRENT_TIMESTAMP`.

The store state is modelled explicitly: the table rows (in rowid order),
the next autoincrement rowid, and the connection-local `last_insert_rowid`
value for every connection.  Timestamps are integers (the `Clock`
collaborator's `now` is passed explicitly).  Fallible driver calls return
`Except DieselError`.
-/

/-- Connections are identified by a natural number; `last_insert_rowid`
state is per-connection (connection-local), as in SQLite. -/
abbrev Conn := Nat

/-- Mirrors `models::User` (`id: i32`, `email: String`,
`created_at: chrono::NaiveDateTime`).  Timestamps are modelled as `Int`. -/
structure User where
  id : Int
  email : String
  created_at : Int
deriving DecidableEq, Repr

/-- Mirrors `models::UserInsert`: only the email is supplied by the caller. -/
structure UserInsert where
  email : String
deriving DecidableEq, Repr

/-- The diesel error kinds this program can surface:
`DatabaseError(UniqueViolation, _)` from the UNIQUE email constraint, and
`Error::NotFound` from a `.first` that finds no row. -/
inductive DieselError where
  | uniqueViolation : DieselError
  | notFound : DieselError
deriving DecidableEq, Repr

/-- The SQLite store state: table rows in rowid order, the next
autoincrement rowid (an i64 in SQLite), and each connection's
connection-local `last_insert_rowid` value (0 before any insert). -/
structure Db where
  rows : List User
  nextId : Int
  lid : Conn → Int

/-- Execution of `diesel::insert_into(users).values(&new_user_form).execute(conn)`:
the store checks the UNIQUE email constraint, assigns the autoincrement
rowid and the `CURRENT_TIMESTAMP` default, and records the rowid in the
inserting connection's `last_insert_rowid` state. -/
def insertExec (c : Conn) (new_user_form : UserInsert) (now : Int) (db : Db) :
    Except DieselError Db :=
  if db.rows.any (fun u => u.email == new_user_form.email) then
    .error .uniqueViolation
  else
    .ok { rows := db.rows ++ [{ id := db.nextId, email := new_user_form.email,
                                created_at := now }],
          nextId := db.nextId + 1,
          lid := Function.update db.lid c db.nextId }

/-- Execution of `diesel::select(last_insert_rowid).first(conn)`: reads the
connection-local last-insert-rowid of connection `c`. -/
def last_insert_rowid (c : Conn) (db : Db) : Int :=
  db.lid c

/-- Execution of `users.find(key).first(conn)`: primary-key equality lookup,
returning the first (and, under the PRIMARY KEY invariant, only) row whose
`id` equals `key`, or `none` (diesel's `Error::NotFound`) when absent. -/
def users_find (key : Int) (db : Db) : Option User :=
  db.rows.find? (fun u => u.id == key)

/-- The two's-complement narrowing performed by `new_user_id as i32` in
`create_user`: reduce modulo 2^32 into the range [-2^31, 2^31). -/
def i64_as_i32 (n : Int) : Int :=
  (n + 2 ^ 31) % 2 ^ 32 - 2 ^ 31

/-- Translation of `create_user` from src/src/main.rs: INSERT the form,
query the connection-local `last_insert_rowid` on the same connection,
cast it with `as i32`, fetch the row by primary key on the same
connection, and return it; every `?` propagates the step's error. -/
def create_user (now : Int) (c : Conn) (new_user_form : UserInsert) (db : Db) :
    Except DieselError (User × Db) :=
  match insertExec c new_user_form now db with
  | .error e => .error e
  | .ok db1 =>
    let new_user_id : Int := last_insert_rowid c db1
    match users_find (i64_as_i32 new_user_id) db1 with
    | some last_insert_user => .ok (last_insert_user, db1)
    | none => .error .notFound

/-- Translation of `read_users`: `users.load::<User>(conn)` returns every
row of the table. -/
def read_users (db : Db) : Except DieselError (List User) :=
  .ok db.rows

/-- Translation of `update_user_created_at`:
`diesel::update(users.filter(id.eq(user_id))).set(created_at.eq(now)).execute(conn)`
sets `created_at` of every row whose id equals `user_id` (at most one under
the PRIMARY KEY invariant) and succeeds regardless of the match count. -/
def update_user_created_at (now : Int) (user_id : Int) (db : Db) :
    Except DieselError Db :=
  .ok { db with rows := db.rows.map (fun u =>
          if u.id == user_id then { u with created_at := now } else u) }

/-- Translation of `delete_user_by_user_id`:
`diesel::delete(users.find(user_id)).execute(conn)` removes every row whose
id equals `user_id` (at most one under the PRIMARY KEY invariant) and
succeeds regardless of the match count. -/
def delete_user_by_user_id (user_id : Int) (db : Db) : Except DieselError Db :=
  .ok { db with rows := db.rows.filter (fun u => !(u.id == user_id)) }

/-- The Create protocol exactly as the specification words it: INSERT the
email-only form, query the connection-local last-insert-row-id on the same
connection, then fetch the row by primary-key equality with that
identifier (no narrowing) on the same connection and return it. -/
def createUserSpecProtocol (now : Int) (c : Conn) (new_user_form : UserInsert)
    (db : Db) : Except DieselError (User × Db) :=
  match insertExec c new_user_form now db with
  | .error e => .error e
  | .ok db1 =>
    let new_user_id : Int := last_insert_rowid c db1
    match users_find new_user_id db1 with
    | some last_insert_user => .ok (last_insert_user, db1)
    | none => .error .notFound

/-- The PRIMARY KEY invariant the store enforces: rowids of distinct rows
are pairwise distinct. -/
def idsDistinct (db : Db) : Prop :=
  db.rows.Pairwise (fun u v => u.id ≠ v.id)

/-- A fresh store with empty table, first autoincrement rowid `n0`, and no
connection having inserted yet. -/
def freshDb (n0 : Int) : Db :=
  { rows := [], nextId := n0, lid := fun _ => 0 }

/-!
Interleaved execution model for the concurrency property of `create_user`:
each of N callers runs on its own connection (caller `c` on connection `c`)
and executes the three-step Create protocol.  A single step of a caller is
atomic at the store (one SQL statement); a schedule is an arbitrary list of
caller indices giving the interleaving order of those statements.
-/

deriving instance DecidableEq for Except

/-- The per-caller state of one in-flight `create_user` call: the email it
inserts, its program counter (0 = about to INSERT, 1 = about to query
`last_insert_rowid`, 2 = about to fetch by primary key, 3 = done), the
last-insert-rowid value it read at step 1, and its final result. -/
structure ThreadSt where
  email : String
  pc : Nat
  lidVal : Int
  result : Option (Except DieselError User)
deriving DecidableEq, Repr

/-- The whole system: the shared store plus every caller's local state. -/
structure Sys where
  db : Db
  threads : List ThreadSt

/-- One atomic step of caller `c` (on connection `c`): executes the next
SQL statement of its `create_user` call, exactly as in the source; a
caller that is done, or an index out of range, leaves the system
unchanged. -/
def sysStep (now : Int) (c : Nat) (s : Sys) : Sys :=
  match s.threads[c]? with
  | none => s
  | some t =>
    match t.pc with
    | 0 =>
      match insertExec c ⟨t.email⟩ now s.db with
      | .ok db1 =>
          let t1 : ThreadSt := { t with pc := 1 }
          { db := db1, threads := s.threads.set c t1 }
      | .error e =>
          let t1 : ThreadSt := { t with pc := 3, result := some (.error e) }
          { s with threads := s.threads.set c t1 }
    | 1 =>
        let t1 : ThreadSt := { t with pc := 2, lidVal := last_insert_rowid c s.db }
        { s with threads := s.threads.set c t1 }
    | 2 =>
      match users_find (i64_as_i32 t.lidVal) s.db with
      | some u =>
          let t1 : ThreadSt := { t with pc := 3, result := some (.ok u) }
          { s with threads := s.threads.set c t1 }
      | none =>
          let t1 : ThreadSt := { t with pc := 3, result := some (.error .notFound) }
          { s with threads := s.threads.set c t1 }
    | _ => s

/-- Run the interleaving given by `sched` (a list of caller indices). -/
def sysRun (now : Int) (sched : List Nat) (s : Sys) : Sys :=
  sched.foldl (fun s c => sysStep now c s) s

/-- The initial system: every caller is at the start of its Create call. -/
def sysInit (emails : List String) (db : Db) : Sys :=
  { db := db,
    threads := emails.map (fun e =>
      { email := e, pc := 0, lidVal := 0, result := none }) }

/-- Program counter of caller `c` (taken as 3, finished, out of range). -/
def pcOf (s : Sys) (c : Nat) : Nat :=
  ((s.threads[c]?).map ThreadSt.pc).getD 3

/-- Invariant tying one caller's local state to the store: before its
INSERT no row carries its email; once it has inserted, connection `c`'s
last-insert-rowid points at its own row; the value it read at step 1
agrees with that state; and when done, its result is exactly its own
row. -/
def TInv (db : Db) (c : Nat) (t : ThreadSt) : Prop :=
  t.pc ≤ 3 ∧
  (t.pc = 0 → ∀ u ∈ db.rows, u.email ≠ t.email) ∧
  (1 ≤ t.pc → ∃ r, r ∈ db.rows ∧ r.email = t.email ∧ r.id = db.lid c) ∧
  (t.pc = 2 → t.lidVal = db.lid c) ∧
  (t.pc = 3 → ∃ u : User, t.result = some (.ok u) ∧ u.email = t.email ∧
      u ∈ db.rows ∧ u.id = db.lid c)

/-- Global invariant of the interleaved execution started from
`sysInit emails (freshDb n0)`: thread emails are the given (distinct)
emails, the store keeps its PRIMARY KEY and UNIQUE invariants, every rowid
lies in [n0, nextId), and nextId counts exactly the INSERTs performed so
far. -/
def SysInv (n0 : Int) (emails : List String) (s : Sys) : Prop :=
  s.threads.map (fun t => t.email) = emails ∧
  s.db.rows.Pairwise (fun u v => u.id ≠ v.id) ∧
  s.db.rows.Pairwise (fun u v => u.email ≠ v.email) ∧
  (∀ u ∈ s.db.rows, n0 ≤ u.id ∧ u.id < s.db.nextId) ∧
  n0 ≤ s.db.nextId ∧
  s.db.nextId = n0 + (s.threads.countP (fun t => decide (1 ≤ t.pc)) : Int) ∧
  (∀ c : Nat, ∀ hc : c < s.threads.length, TInv s.db c (s.threads.get ⟨c, hc⟩))

/-!  Helper lemmas about the embedded operations. -/

/-- Narrowing is the identity exactly on the i32 range. -/
theorem i64_as_i32_eq_self {n : Int} (h0 : -2 ^ 31 ≤ n) (h1 : n < 2 ^ 31) :
    i64_as_i32 n = n := by
  unfold i64_as_i32
  omega

/-- Characterisation of a successful INSERT. -/
theorem insertExec_ok_iff {c : Conn} {f : UserInsert} {now : Int} {db db1 : Db} :
    insertExec c f now db = .ok db1 ↔
      (∀ u ∈ db.rows, u.email ≠ f.email) ∧
      db1 = { rows := db.rows ++
                [{ id := db.nextId, email := f.email, created_at := now }],
              nextId := db.nextId + 1,
              lid := Function.update db.lid c db.nextId } := by
  unfold insertExec
  split
  case isTrue h =>
    simp only [List.any_eq_true, beq_iff_eq] at h
    obtain ⟨u, hu, he⟩ := h
    constructor
    · intro hcontra; cases hcontra
    · rintro ⟨hall, -⟩
      exact absurd he (hall u hu)
  case isFalse h =>
    simp only [List.any_eq_true, beq_iff_eq, not_exists] at h
    constructor
    · intro hok
      injection hok with hok
      refine ⟨fun u hu => ?_, hok.symm⟩
      intro he
      exact h u ⟨hu, he⟩
    · rintro ⟨-, hdb⟩
      rw [hdb]

/-- Characterisation of a failed INSERT. -/
theorem insertExec_error_iff {c : Conn} {f : UserInsert} {now : Int} {db : Db}
    {e : DieselError} :
    insertExec c f now db = .error e ↔
      e = .uniqueViolation ∧ ∃ u ∈ db.rows, u.email = f.email := by
  unfold insertExec
  split
  case isTrue h =>
    simp only [List.any_eq_true, beq_iff_eq] at h
    constructor
    · intro he
      injection he with he
      exact ⟨he.symm, h⟩
    · rintro ⟨he, -⟩
      rw [he]
  case isFalse h =>
    simp only [List.any_eq_true, beq_iff_eq] at h
    constructor
    · intro hcontra; cases hcontra
    · rintro ⟨-, hex⟩
      exact absurd hex h

/-- Step 1 failing (the `?` on the INSERT) propagates its error. -/
theorem create_user_insert_error {now : Int} {c : Conn} {f : UserInsert}
    {db : Db} {e : DieselError} (h : insertExec c f now db = .error e) :
    create_user now c f db = .error e := by
  unfold create_user
  rw [h]

/-- Step 1 succeeding leaves the last-insert-rowid query and the fetch. -/
theorem create_user_insert_ok {now : Int} {c : Conn} {f : UserInsert}
    {db db1 : Db} (h : insertExec c f now db = .ok db1) :
    create_user now c f db =
      match users_find (i64_as_i32 (last_insert_rowid c db1)) db1 with
      | some u => .ok (u, db1)
      | none => .error .notFound := by
  unfold create_user
  rw [h]

/-- Spec-protocol analogue of `create_user_insert_error`. -/
theorem createUserSpecProtocol_insert_error {now : Int} {c : Conn}
    {f : UserInsert} {db : Db} {e : DieselError}
    (h : insertExec c f now db = .error e) :
    createUserSpecProtocol now c f db = .error e := by
  unfold createUserSpecProtocol
  rw [h]

/-- Spec-protocol analogue of `create_user_insert_ok`. -/
theorem createUserSpecProtocol_insert_ok {now : Int} {c : Conn}
    {f : UserInsert} {db db1 : Db} (h : insertExec c f now db = .ok db1) :
    createUserSpecProtocol now c f db =
      match users_find (last_insert_rowid c db1) db1 with
      | some u => .ok (u, db1)
      | none => .error .notFound := by
  unfold createUserSpecProtocol
  rw [h]

/-- Inversion of a successful `create_user`: the INSERT succeeded and the
fetch of the narrowed last-insert-rowid found exactly the returned row. -/
theorem create_user_ok_inv {now : Int} {c : Conn} {f : UserInsert}
    {db : Db} {u : User} {db1 : Db}
    (h : create_user now c f db = .ok (u, db1)) :
    insertExec c f now db = .ok db1 ∧
    users_find (i64_as_i32 (last_insert_rowid c db1)) db1 = some u := by
  unfold create_user at h
  split at h
  next e heq => exact absurd h (by simp)
  next db2 heq =>
    dsimp only at h
    split at h
    next v hf =>
      injection h with h
      cases h
      exact ⟨heq, hf⟩
    next hf => exact absurd h (by simp)

/-- In a table with pairwise-distinct rowids, primary-key lookup of a
member's id finds exactly that member. -/
theorem find_id_of_mem {l : List User} {r : User}
    (hp : l.Pairwise (fun u v => u.id ≠ v.id)) (hm : r ∈ l) :
    l.find? (fun u => u.id == r.id) = some r := by
  induction l with
  | nil => cases hm
  | cons a l ih =>
    obtain ⟨hhead, htail⟩ := List.pairwise_cons.mp hp
    rcases List.mem_cons.mp hm with h | h
    · subst h
      simp [List.find?_cons]
    · have ha : ¬(a.id == r.id) = true := by
        simp only [beq_iff_eq]
        exact hhead r h
      rw [List.find?_cons]
      simp only [Bool.not_eq_true] at ha
      rw [ha]
      exact ih htail h

/-- In a table with pairwise-distinct emails, each member's email occurs
exactly once. -/
theorem countP_email_eq_one {l : List User} {r : User}
    (hp : l.Pairwise (fun u v => u.email ≠ v.email)) (hm : r ∈ l) :
    l.countP (fun u => u.email == r.email) = 1 := by
  induction l with
  | nil => cases hm
  | cons a l ih =>
    obtain ⟨hhead, htail⟩ := List.pairwise_cons.mp hp
    rw [List.countP_cons]
    rcases List.mem_cons.mp hm with h | h
    · subst h
      have : l.countP (fun u => u.email == r.email) = 0 := by
        rw [List.countP_eq_zero]
        intro u hu
        simp only [beq_iff_eq]
        exact fun he => hhead u hu he.symm
      simp [this]
    · have ha : ¬(a.email == r.email) = true := by
        simp only [beq_iff_eq]
        exact hhead r h
      rw [ih htail h]
      simp [ha]

/-- In a table with pairwise-distinct rowids, any key matches at most one
row. -/
theorem countP_id_le_one {l : List User} {k : Int}
    (hp : l.Pairwise (fun u v => u.id ≠ v.id)) :
    l.countP (fun u => u.id == k) ≤ 1 := by
  induction l with
  | nil => simp
  | cons a l ih =>
    obtain ⟨hhead, htail⟩ := List.pairwise_cons.mp hp
    rw [List.countP_cons]
    by_cases hak : a.id = k
    · have : l.countP (fun u => u.id == k) = 0 := by
        rw [List.countP_eq_zero]
        intro u hu
        simp only [beq_iff_eq]
        intro he
        exact hhead u hu (hak.trans he.symm)
      simp [this, hak]
    · have : ¬(a.id == k) = true := by simp [hak]
      simp only [this, if_false]
      exact Nat.le_trans (Nat.le_of_eq (Nat.add_zero _)) (ih htail)

/-!  Claim C1: the three-step Create protocol. -/

/-- C1 (counterexample): the claim that `create_user` fetches by *the*
last-insert-row-id identifier fails as stated, because the code narrows the
identifier with `as i32` first.  Starting from a store whose next
autoincrement rowid is 2^31, the spec-worded protocol returns the inserted
row (id 2^31), but `create_user` fetches with the narrowed id -2^31 and
returns no row at all. -/
theorem create_user_narrowing_diverges_from_protocol :
    (create_user 0 0 ⟨"a"⟩ (freshDb (2 ^ 31))).toOption.map Prod.fst = none ∧
    (createUserSpecProtocol 0 0 ⟨"a"⟩ (freshDb (2 ^ 31))).toOption.map Prod.fst =
      some { id := 2 ^ 31, email := "a", created_at := 0 } := by
  constructor <;> decide

/-- C1 (amended): whenever the generated rowid fits in the i32 range,
`create_user` follows the three-step protocol exactly as the spec words
it — INSERT of the email-only form, connection-local last-insert-row-id
query on the same connection (never a MAX(id)/ORDER BY query), then a
primary-key-equality fetch of that identifier on the same connection,
returning that row. -/
theorem create_user_follows_protocol_in_i32_range (now : Int) (c : Conn)
    (f : UserInsert) (db : Db)
    (h0 : -2 ^ 31 ≤ db.nextId) (h1 : db.nextId < 2 ^ 31) :
    create_user now c f db = createUserSpecProtocol now c f db := by
  cases hins : insertExec c f now db with
  | error e =>
    rw [create_user_insert_error hins, createUserSpecProtocol_insert_error hins]
  | ok db1 =>
    have hlid : last_insert_rowid c db1 = db.nextId := by
      obtain ⟨-, hdb⟩ := insertExec_ok_iff.mp hins
      rw [hdb]
      simp [last_insert_rowid, Function.update]
    rw [create_user_insert_ok hins, createUserSpecProtocol_insert_ok hins, hlid,
      i64_as_i32_eq_self h0 h1]

/-- C1 (witness): the amended protocol equivalence at a fresh store. -/
theorem create_user_follows_protocol_in_i32_range_witness :
    create_user 5 0 ⟨"w"⟩ (freshDb 1) = createUserSpecProtocol 5 0 ⟨"w"⟩ (freshDb 1) :=
  create_user_follows_protocol_in_i32_range 5 0 ⟨"w"⟩ (freshDb 1)
    (by decide) (by decide)

/-!  Claim C10: the implicit `as i32` narrowing in `create_user`. -/

/-- C10: the 64-bit last-insert-rowid is narrowed to i32 before the
primary-key fetch: the id of the returned row equals the two's-complement
reduction of the connection's last-insert-rowid modulo 2^32, which is
congruent to it modulo 2^32, lies in [-2^31, 2^31), and equals the actual
generated rowid exactly when that rowid fits in the i32 range. -/
theorem create_user_i32_narrowing :
    (∀ (now : Int) (c : Conn) (f : UserInsert) (db db1 : Db) (u : User),
        create_user now c f db = .ok (u, db1) →
        u.id = i64_as_i32 (last_insert_rowid c db1)) ∧
    (∀ n : Int, i64_as_i32 n % 2 ^ 32 = n % 2 ^ 32) ∧
    (∀ n : Int, -2 ^ 31 ≤ i64_as_i32 n ∧ i64_as_i32 n < 2 ^ 31) ∧
    (∀ n : Int, i64_as_i32 n = n ↔ -2 ^ 31 ≤ n ∧ n < 2 ^ 31) := by
  refine ⟨?_, ?_, ?_, ?_⟩
  · intro now c f db db1 u h
    obtain ⟨-, hf⟩ := create_user_ok_inv h
    have hid := List.find?_some hf
    simpa only [beq_iff_eq] using hid
  · intro n; unfold i64_as_i32; omega
  · intro n; unfold i64_as_i32; constructor <;> omega
  · intro n; unfold i64_as_i32; omega

/-- C10 (witness): after a Create on a fresh store, the returned id equals
the narrowed last-insert-rowid of the connection. -/
theorem create_user_i32_narrowing_witness :
    (⟨1, "n", 5⟩ : User).id = i64_as_i32 (last_insert_rowid 0
      (Db.mk [⟨1, "n", 5⟩] 2 (Function.update (fun _ => 0) 0 1))) :=
  create_user_i32_narrowing.1 5 0 ⟨"n"⟩ (freshDb 1)
    (Db.mk [⟨1, "n", 5⟩] 2 (Function.update (fun _ => 0) 0 1)) ⟨1, "n", 5⟩ rfl

/-!  Claim C4: Create's result can be refetched identically. -/

/-- C4: whenever Create returns a user U, a direct primary-key fetch of
U.id against the resulting store (no intervening operation) yields a row
identical to U — id, email and created_at all equal. -/
theorem create_then_refetch_identical (now : Int) (c : Conn) (f : UserInsert)
    (db : Db) (u : User) (db1 : Db)
    (h : create_user now c f db = .ok (u, db1)) :
    users_find u.id db1 = some u := by
  obtain ⟨-, hf⟩ := create_user_ok_inv h
  have hid := List.find?_some hf
  simp only [beq_iff_eq] at hid
  unfold users_find at hf ⊢
  rw [hid]
  exact hf

/-- C4 (witness): refetching the Create result on a fresh store. -/
theorem create_then_refetch_identical_witness :
    users_find (⟨1, "r", 5⟩ : User).id
      (Db.mk [⟨1, "r", 5⟩] 2 (Function.update (fun _ => 0) 0 1)) =
      some ⟨1, "r", 5⟩ :=
  create_then_refetch_identical 5 0 ⟨"r"⟩ (freshDb 1) ⟨1, "r", 5⟩
    (Db.mk [⟨1, "r", 5⟩] 2 (Function.update (fun _ => 0) 0 1)) rfl

/-!  Claim C3: Create then ReadAll shows exactly one row for the email. -/

/-- C3: from a state with no row carrying email `e`, a successful
Create(e) followed by ReadAll yields exactly one row whose email is `e`,
and that row's created_at is present — it is the store default `now`
assigned at insertion. -/
theorem create_then_read_unique_email (now : Int) (c : Conn) (e : String)
    (db : Db) (u : User) (db1 : Db)
    (hfresh : ∀ v ∈ db.rows, v.email ≠ e)
    (h : create_user now c ⟨e⟩ db = .ok (u, db1)) :
    read_users db1 = .ok db1.rows ∧
    db1.rows.filter (fun v => v.email == e) =
      [{ id := db.nextId, email := e, created_at := now }] := by
  refine ⟨rfl, ?_⟩
  obtain ⟨hins, -⟩ := create_user_ok_inv h
  obtain ⟨-, hdb⟩ := insertExec_ok_iff.mp hins
  rw [hdb]
  simp only [List.filter_append]
  have hnil : db.rows.filter (fun v => v.email == e) = [] := by
    rw [List.filter_eq_nil_iff]
    intro v hv
    simp only [beq_iff_eq]
    exact hfresh v hv
  rw [hnil]
  simp

/-- C3 (witness): Create then ReadAll on a fresh store. -/
theorem create_then_read_unique_email_witness :
    read_users (Db.mk [⟨1, "u", 5⟩] 2 (Function.update (fun _ => 0) 0 1)) =
      .ok [⟨1, "u", 5⟩] ∧
    (Db.mk [⟨1, "u", 5⟩] 2 (Function.update (fun _ => 0) 0 1)).rows.filter
      (fun v => v.email == "u") = [{ id := 1, email := "u", created_at := 5 }] := by
  have h := create_then_read_unique_email 5 0 "u" (freshDb 1) ⟨1, "u", 5⟩
    (Db.mk [⟨1, "u", 5⟩] 2 (Function.update (fun _ => 0) 0 1))
    (by intro v hv; cases hv) rfl
  exact ⟨h.1, h.2⟩

/-!  Claim C5: duplicate Create fails and changes nothing. -/

/-- C5: after a successful Create(e) from an e-free state, a second
Create(e) — on any connection, at any time — fails with the unique-email
constraint violation, and (the failing INSERT having produced no new
state) the table still contains exactly one row whose email is `e`. -/
theorem create_duplicate_email_fails (now1 now2 : Int) (c1 c2 : Conn)
    (e : String) (db : Db) (u : User) (db1 : Db)
    (hfresh : ∀ v ∈ db.rows, v.email ≠ e)
    (h : create_user now1 c1 ⟨e⟩ db = .ok (u, db1)) :
    create_user now2 c2 ⟨e⟩ db1 = .error .uniqueViolation ∧
    db1.rows.countP (fun v => v.email == e) = 1 := by
  obtain ⟨hins, -⟩ := create_user_ok_inv h
  obtain ⟨-, hdb⟩ := insertExec_ok_iff.mp hins
  constructor
  · apply create_user_insert_error
    apply insertExec_error_iff.mpr
    refine ⟨rfl, ⟨{ id := db.nextId, email := e, created_at := now1 }, ?_, rfl⟩⟩
    rw [hdb]
    simp
  · rw [hdb]
    simp only [List.countP_append]
    have hz : db.rows.countP (fun v => v.email == e) = 0 := by
      rw [List.countP_eq_zero]
      intro v hv
      simp only [beq_iff_eq]
      exact hfresh v hv
    rw [hz]
    simp [List.countP_cons]

/-- C5 (witness): duplicate Create on a fresh store. -/
theorem create_duplicate_email_fails_witness :
    create_user 6 1 ⟨"d"⟩ (Db.mk [⟨1, "d", 5⟩] 2 (Function.update (fun _ => 0) 0 1)) =
      .error .uniqueViolation ∧
    (Db.mk [⟨1, "d", 5⟩] 2 (Function.update (fun _ => 0) 0 1)).rows.countP
      (fun v => v.email == "d") = 1 :=
  create_duplicate_email_fails 5 6 0 1 "d" (freshDb 1) ⟨1, "d", 5⟩
    (Db.mk [⟨1, "d", 5⟩] 2 (Function.update (fun _ => 0) 0 1))
    (by intro v hv; cases hv) rfl

/-!  Claim C9: failures propagate, never retried, never swallowed. -/

/-- C9: every store failure surfaces to the caller as the typed
`DieselError` result of the single attempt: an INSERT failure is returned
unmodified by Create; a fetch-after-insert that finds no row for the
(narrowed) last-insert id makes Create return `notFound` as a hard failure;
conversely every Create error is exactly one of those two, so nothing is
swallowed or retried; ReadAll, UpdateTimestamp and DeleteById return their
typed results directly. -/
theorem operations_propagate_errors :
    (∀ (now : Int) (c : Conn) (f : UserInsert) (db : Db) (e : DieselError),
        insertExec c f now db = .error e → create_user now c f db = .error e) ∧
    (∀ (now : Int) (c : Conn) (f : UserInsert) (db db1 : Db),
        insertExec c f now db = .ok db1 →
        users_find (i64_as_i32 (last_insert_rowid c db1)) db1 = none →
        create_user now c f db = .error .notFound) ∧
    (∀ (now : Int) (c : Conn) (f : UserInsert) (db : Db) (err : DieselError),
        create_user now c f db = .error err →
        insertExec c f now db = .error err ∨
          ∃ db1, insertExec c f now db = .ok db1 ∧
            users_find (i64_as_i32 (last_insert_rowid c db1)) db1 = none ∧
            err = .notFound) ∧
    (∀ db : Db, read_users db = .ok db.rows) ∧
    (∀ (now uid : Int) (db : Db), ∃ db1, update_user_created_at now uid db = .ok db1) ∧
    (∀ (uid : Int) (db : Db), ∃ db1, delete_user_by_user_id uid db = .ok db1) := by
  refine ⟨?_, ?_, ?_, fun db => rfl, fun now uid db => ⟨_, rfl⟩, fun uid db => ⟨_, rfl⟩⟩
  · intro now c f db e h
    exact create_user_insert_error h
  · intro now c f db db1 hins hf
    rw [create_user_insert_ok hins, hf]
  · intro now c f db err h
    unfold create_user at h
    split at h
    next e heq =>
      injection h with h
      left
      rw [← h]
      exact heq
    next db2 heq =>
      dsimp only at h
      split at h
      next v hf => exact absurd h (by simp)
      next hf =>
        injection h with h
        exact Or.inr ⟨db2, heq, hf, h.symm⟩

/-- C9 (witness): the NotFound of the fetch-after-insert step propagates:
with the autoincrement counter at 2^31, the narrowed id matches no row and
Create surfaces the hard failure. -/
theorem operations_propagate_errors_witness :
    create_user 0 0 ⟨"x"⟩ (freshDb (2 ^ 31)) = .error .notFound :=
  operations_propagate_errors.2.1 0 0 ⟨"x"⟩ (freshDb (2 ^ 31))
    (Db.mk [⟨2 ^ 31, "x", 0⟩] (2 ^ 31 + 1) (Function.update (fun _ => 0) 0 (2 ^ 31)))
    rfl (by decide)

/-!  Claims C6/C7/C8: UpdateTimestamp and DeleteById. -/

/-- Position-wise characterisation of zipping a list with its own map. -/
theorem countP_zip_map {α : Type} (l : List α) (f : α → α) (q : α × α → Bool) :
    (l.zip (l.map f)).countP q = l.countP (fun a => q (a, f a)) := by
  induction l with
  | nil => simp
  | cons a l ih =>
    rw [List.map_cons, List.zip_cons_cons, List.countP_cons, List.countP_cons, ih]

/-- C6: UpdateTimestamp(userId) succeeds, sets `created_at` of the row
matching `userId` to the clock's current value, is a no-op (zero rows
affected, no error) when no row matches, and — the store enforcing
pairwise-distinct primary keys — mutates at most one row. -/
theorem update_sets_timestamp_at_most_one_row (now uid : Int) (db db1 : Db)
    (hids : idsDistinct db)
    (h : update_user_created_at now uid db = .ok db1) :
    (∀ u ∈ db.rows, u.id = uid → { u with created_at := now } ∈ db1.rows) ∧
    ((∀ u ∈ db.rows, u.id ≠ uid) → db1 = db) ∧
    (db.rows.zip db1.rows).countP (fun p => !(p.1 == p.2)) ≤ 1 := by
  unfold update_user_created_at at h
  injection h with h
  refine ⟨?_, ?_, ?_⟩
  · intro u hu huid
    rw [← h]
    have hb : (u.id == uid) = true := by simp [huid]
    have hmem := List.mem_map_of_mem
      (fun u : User => if u.id == uid then { u with created_at := now } else u) hu
    simp only [hb, if_true] at hmem
    exact hmem
  · intro hall
    rw [← h]
    have hmap : db.rows.map
        (fun u : User => if u.id == uid then { u with created_at := now } else u) =
        db.rows := by
      have := List.map_congr_left (l := db.rows)
        (g := id)
        (f := fun u : User => if u.id == uid then { u with created_at := now } else u)
        (fun u hu => by
          have : ¬(u.id == uid) = true := by
            simp only [beq_iff_eq]
            exact hall u hu
          simp [this])
      rw [this, List.map_id]
    rw [hmap]
  · rw [← h]
    rw [countP_zip_map]
    have hle : db.rows.countP
        (fun a : User =>
          !(a == if a.id == uid then { a with created_at := now } else a)) ≤
        db.rows.countP (fun a : User => a.id == uid) := by
      apply List.countP_mono_left
      intro u hu hne
      by_contra hid
      simp only [hid, if_false] at hne
      simp at hne
    exact Nat.le_trans hle (countP_id_le_one hids)

/-- C6 (witness): updating id 1 in a two-row table mutates at most one
row. -/
theorem update_sets_timestamp_at_most_one_row_witness :
    ((Db.mk [⟨1, "a", 0⟩, ⟨2, "b", 0⟩] 3 (fun _ => 0)).rows.zip
      (Db.mk [⟨1, "a", 9⟩, ⟨2, "b", 0⟩] 3 (fun _ => 0)).rows).countP
      (fun p => !(p.1 == p.2)) ≤ 1 :=
  (update_sets_timestamp_at_most_one_row 9 1
    (Db.mk [⟨1, "a", 0⟩, ⟨2, "b", 0⟩] 3 (fun _ => 0))
    (Db.mk [⟨1, "a", 9⟩, ⟨2, "b", 0⟩] 3 (fun _ => 0))
    (by unfold idsDistinct; decide) rfl).2.2

/-- C7: UpdateTimestamp changes only `created_at`: row-for-row, the new
table keeps every id and email, every row whose id differs from `userId`
is unchanged in all fields, and a matching row changes at most its
`created_at` (to the clock value). -/
theorem update_frame_only_created_at (now uid : Int) (db db1 : Db)
    (h : update_user_created_at now uid db = .ok db1) :
    List.Forall₂ (fun old new : User =>
      new.id = old.id ∧ new.email = old.email ∧
      (old.id ≠ uid → new = old) ∧
      (old.id = uid → new = { old with created_at := now }))
      db.rows db1.rows := by
  unfold update_user_created_at at h
  injection h with h
  rw [← h]
  rw [List.forall₂_map_right_iff, List.forall₂_same]
  intro u hu
  by_cases hid : u.id = uid
  · simp [hid]
  · simp [hid]

/-- C7 (witness): the frame property at a concrete two-row table. -/
theorem update_frame_only_created_at_witness :
    List.Forall₂ (fun old new : User =>
      new.id = old.id ∧ new.email = old.email ∧
      (old.id ≠ (1 : Int) → new = old) ∧
      (old.id = (1 : Int) → new = { old with created_at := 9 }))
      [⟨1, "a", 0⟩, ⟨2, "b", 0⟩] [⟨1, "a", 9⟩, ⟨2, "b", 0⟩] := by
  have h := update_frame_only_created_at 9 1
    (Db.mk [⟨1, "a", 0⟩, ⟨2, "b", 0⟩] 3 (fun _ => 0))
    (Db.mk [⟨1, "a", 9⟩, ⟨2, "b", 0⟩] 3 (fun _ => 0)) rfl
  exact h

/-- C8: DeleteById(userId) removes exactly the rows matching `userId`
(zero or one under the PRIMARY KEY invariant): membership in the resulting
table — what a subsequent ReadAll returns — is membership in the old table
minus the matching id, a no-match delete is a no-op, at most one row is
removed, and the surviving rows keep their order. -/
theorem delete_removes_only_target (uid : Int) (db db1 : Db)
    (hids : idsDistinct db)
    (h : delete_user_by_user_id uid db = .ok db1) :
    (read_users db1 = .ok db1.rows ∧
      ∀ u : User, u ∈ db1.rows ↔ u ∈ db.rows ∧ u.id ≠ uid) ∧
    ((∀ u ∈ db.rows, u.id ≠ uid) → db1 = db) ∧
    db.rows.length ≤ db1.rows.length + 1 ∧
    db1.rows.Sublist db.rows := by
  unfold delete_user_by_user_id at h
  injection h with h
  refine ⟨⟨rfl, ?_⟩, ?_, ?_, ?_⟩
  · intro u
    rw [← h]
    simp only [List.mem_filter, Bool.not_eq_true', beq_eq_false_iff_ne]
  · intro hall
    rw [← h]
    have : db.rows.filter (fun u => !(u.id == uid)) = db.rows := by
      rw [List.filter_eq_self]
      intro u hu
      simp only [Bool.not_eq_true', beq_eq_false_iff_ne]
      exact hall u hu
    rw [this]
  · rw [← h]
    dsimp only
    have hsplit := List.length_eq_countP_add_countP
      (fun u : User => !(u.id == uid)) db.rows
    have hfl : (db.rows.filter (fun u : User => !(u.id == uid))).length =
        db.rows.countP (fun u : User => !(u.id == uid)) :=
      (List.countP_eq_length_filter _ _).symm
    have hc : db.rows.countP
        (fun u : User => decide ¬(!(u.id == uid)) = true) =
        db.rows.countP (fun u : User => u.id == uid) := by
      apply List.countP_congr
      intro u hu
      simp
    have hone := countP_id_le_one (k := uid) hids
    omega
  · rw [← h]
    exact List.filter_sublist _

/-- C8 (witness): deleting id 1 from a two-row table removes at most one
row. -/
theorem delete_removes_only_target_witness :
    (Db.mk [⟨1, "a", 0⟩, ⟨2, "b", 0⟩] 3 (fun _ => 0)).rows.length ≤
      (Db.mk [⟨2, "b", 0⟩] 3 (fun _ => 0)).rows.length + 1 :=
  (delete_removes_only_target 1
    (Db.mk [⟨1, "a", 0⟩, ⟨2, "b", 0⟩] 3 (fun _ => 0))
    (Db.mk [⟨2, "b", 0⟩] 3 (fun _ => 0))
    (by unfold idsDistinct; decide) rfl).2.2.1

/-!  Claim C2: the concurrency property of the last-insert-id protocol. -/

/-- Setting an index to its current value leaves a list unchanged. -/
theorem set_self {α : Type} (l : List α) (c : Nat) (a : α) (h : l[c]? = some a) :
    l.set c a = l := by
  induction l generalizing c with
  | nil => simp at h
  | cons b l ih =>
    cases c with
    | zero =>
      simp only [List.getElem?_cons_zero, Option.some.injEq] at h
      rw [h, List.set_cons_zero]
    | succ c =>
      simp only [List.getElem?_cons_succ] at h
      rw [List.set_cons_succ, ih c h]

/-- Bookkeeping of `countP` under a single-index update. -/
theorem countP_set {α : Type} (l : List α) (c : Nat) (a a0 : α) (p : α → Bool)
    (hc : l[c]? = some a0) :
    (l.set c a).countP p + (if p a0 then 1 else 0) =
      l.countP p + (if p a then 1 else 0) := by
  induction l generalizing c with
  | nil => simp at hc
  | cons b l ih =>
    cases c with
    | zero =>
      simp only [List.getElem?_cons_zero, Option.some.injEq] at hc
      subst hc
      rw [List.set_cons_zero]
      simp only [List.countP_cons]
      omega
    | succ c =>
      simp only [List.getElem?_cons_succ] at hc
      rw [List.set_cons_succ]
      simp only [List.countP_cons]
      have := ih c hc
      omega

/-- Stepping an out-of-range caller does nothing. -/
theorem sysStep_none {now : Int} {c : Nat} {s : Sys}
    (h : s.threads[c]? = none) : sysStep now c s = s := by
  unfold sysStep
  rw [h]

/-- Step equation: a successful INSERT moves the caller to pc 1. -/
theorem sysStep_pc0_ok {now : Int} {c : Nat} {s : Sys} {t : ThreadSt} {db1 : Db}
    (h : s.threads[c]? = some t) (hpc : t.pc = 0)
    (hins : insertExec c ⟨t.email⟩ now s.db = .ok db1) :
    sysStep now c s =
      { db := db1, threads := s.threads.set c { t with pc := 1 } } := by
  unfold sysStep
  rw [h]
  dsimp only
  rw [hpc]
  dsimp only
  rw [hins]

/-- Step equation: the last-insert-rowid query moves the caller to pc 2,
recording the connection-local value. -/
theorem sysStep_pc1 {now : Int} {c : Nat} {s : Sys} {t : ThreadSt}
    (h : s.threads[c]? = some t) (hpc : t.pc = 1) :
    sysStep now c s =
      { s with threads := s.threads.set c ({ t with pc := 2, lidVal := last_insert_rowid c s.db }) } := by
  unfold sysStep
  rw [h]
  dsimp only
  rw [hpc]

/-- Step equation: a fetch that finds a row finishes the caller with that
row as its Ok result. -/
theorem sysStep_pc2_found {now : Int} {c : Nat} {s : Sys} {t : ThreadSt} {u : User}
    (h : s.threads[c]? = some t) (hpc : t.pc = 2)
    (hf : users_find (i64_as_i32 t.lidVal) s.db = some u) :
    sysStep now c s =
      { s with threads := s.threads.set c ({ t with pc := 3, result := some (.ok u) }) } := by
  unfold sysStep
  rw [h]
  dsimp only
  rw [hpc]
  dsimp only
  rw [hf]

/-- Step equation: a finished caller does nothing. -/
theorem sysStep_pc3 {now : Int} {c : Nat} {s : Sys} {t : ThreadSt}
    (h : s.threads[c]? = some t) (hpc : 3 ≤ t.pc) :
    sysStep now c s = s := by
  unfold sysStep
  rw [h]
  dsimp only
  obtain ⟨k, hk⟩ : ∃ k, t.pc = k + 3 := ⟨t.pc - 3, by omega⟩
  rw [hk]
  rfl

/-- Threads carry pairwise-distinct emails when the email list does. -/
theorem threads_email_pairwise {emails : List String} {s : Sys}
    (hmap : s.threads.map (fun t => t.email) = emails)
    (hem : emails.Pairwise (fun a b => a ≠ b)) :
    s.threads.Pairwise (fun t1 t2 => t1.email ≠ t2.email) := by
  rw [← hmap] at hem
  exact List.pairwise_map.mp hem

/-- Replacing one caller's local state — same email, same
has-it-inserted-yet status, new state satisfying its thread invariant —
preserves the global invariant when the store is untouched. -/
theorem SysInv_set_thread {n0 : Int} {emails : List String} {s : Sys} {c : Nat}
    {t t1 : ThreadSt}
    (hinv : SysInv n0 emails s)
    (hct : s.threads[c]? = some t)
    (hemail : t1.email = t.email)
    (hcnt : decide (1 ≤ t1.pc) = decide (1 ≤ t.pc))
    (htinv1 : TInv s.db c t1) :
    SysInv n0 emails { s with threads := s.threads.set c t1 } := by
  obtain ⟨hmap, hidsP, hemP, hrange, hn0, hcount, htinv⟩ := hinv
  obtain ⟨hlt, hget⟩ := List.getElem?_eq_some.mp hct
  refine ⟨?_, hidsP, hemP, hrange, hn0, ?_, ?_⟩
  · rw [List.map_set, hemail]
    rw [set_self]
    · exact hmap
    · rw [List.getElem?_map, hct]
      rfl
  · have hcnt2 := countP_set s.threads c t1 t (fun t => decide (1 ≤ t.pc)) hct
    simp only [hcnt] at hcnt2
    have : (s.threads.set c t1).countP (fun t => decide (1 ≤ t.pc)) =
        s.threads.countP (fun t => decide (1 ≤ t.pc)) := by omega
    simp only [this]
    exact hcount
  · intro c2 hc2
    rw [List.length_set] at hc2
    by_cases hcc : c2 = c
    · subst hcc
      have : (s.threads.set c2 t1).get ⟨c2, by rwa [List.length_set]⟩ = t1 := by
        rw [List.get_eq_getElem]
        exact List.getElem_set_self _
      rw [this]
      exact htinv1
    · have : (s.threads.set c t1).get ⟨c2, by rwa [List.length_set]⟩ =
          s.threads.get ⟨c2, hc2⟩ := by
        rw [List.get_eq_getElem, List.get_eq_getElem]
        exact List.getElem_set_ne (fun h => hcc h.symm) _
      rw [this]
      exact htinv c2 hc2

/-- Program counter of a caller, read off its thread record. -/
theorem pcOf_eq_of_get {s : Sys} {c : Nat} {t : ThreadSt}
    (h : s.threads[c]? = some t) : pcOf s c = t.pc := by
  unfold pcOf
  rw [h]
  rfl

/-- Distinct callers carry distinct emails. -/
theorem email_ne_of_ne {emails : List String} {s : Sys} {t : ThreadSt}
    (hmap : s.threads.map (fun t => t.email) = emails)
    (hem : emails.Pairwise (fun a b => a ≠ b))
    {c c2 : Nat} (hct : s.threads[c]? = some t)
    (hc2 : c2 < s.threads.length) (hne : c2 ≠ c) :
    (s.threads.get ⟨c2, hc2⟩).email ≠ t.email := by
  obtain ⟨hlt, hget⟩ := List.getElem?_eq_some.mp hct
  have hp := List.pairwise_iff_getElem.mp (threads_email_pairwise hmap hem)
  rw [List.get_eq_getElem]
  rcases Nat.lt_or_ge c2 c with h | h
  · have h2 := hp c2 c hc2 hlt h
    rwa [hget] at h2
  · have hcc : c < c2 := by omega
    have h2 := hp c c2 hlt hc2 hcc
    rw [hget] at h2
    exact fun he => h2 he.symm

/-- A one-index update that turns the predicate from false to true raises
`countP` by one. -/
theorem countP_set_flip {α : Type} (l : List α) (c : Nat) (a a0 : α)
    (p : α → Bool) (hc : l[c]? = some a0) (hpa0 : p a0 = false)
    (hpa : p a = true) :
    (l.set c a).countP p = l.countP p + 1 := by
  have h2 := countP_set l c a a0 p hc
  rw [hpa0, hpa] at h2
  simpa using h2

/-- One interleaved step preserves the global invariant; the stepped
caller's pc advances by one (capped at 3) and no other caller's pc
changes. -/
theorem sysStep_preserves (now n0 : Int) (emails : List String) (c : Nat) (s : Sys)
    (h0 : 0 ≤ n0) (hN : n0 + (emails.length : Int) ≤ 2 ^ 31)
    (hem : emails.Pairwise (fun a b => a ≠ b))
    (hinv : SysInv n0 emails s) :
    SysInv n0 emails (sysStep now c s) ∧
    (∀ c2, c2 ≠ c → pcOf (sysStep now c s) c2 = pcOf s c2) ∧
    (c < s.threads.length → pcOf (sysStep now c s) c = min 3 (pcOf s c + 1)) := by
  cases hct : s.threads[c]? with
  | none =>
    rw [sysStep_none hct]
    refine ⟨hinv, fun _ _ => rfl, fun hlt => ?_⟩
    rw [List.getElem?_eq_none_iff] at hct
    omega
  | some t =>
    obtain ⟨hmap, hidsP, hemP, hrange, hn0, hcount, htinv⟩ := hinv
    obtain ⟨hlt, hget⟩ := List.getElem?_eq_some.mp hct
    have hlen : emails.length = s.threads.length := by
      rw [← hmap, List.length_map]
    have htc : TInv s.db c t := by
      have h2 := htinv c hlt
      rw [List.get_eq_getElem] at h2
      rwa [hget] at h2
    obtain ⟨hpcle, hfresh0, hins1, hlid2, hdone3⟩ := htc
    rcases hpck : t.pc with _ | _ | _ | k
    · -- INSERT step
      have hfresh : ∀ u ∈ s.db.rows, u.email ≠ t.email := hfresh0 hpck
      have hins : insertExec c ⟨t.email⟩ now s.db = .ok
          { rows := s.db.rows ++
              [{ id := s.db.nextId, email := t.email, created_at := now }],
            nextId := s.db.nextId + 1,
            lid := Function.update s.db.lid c s.db.nextId } :=
        insertExec_ok_iff.mpr ⟨hfresh, rfl⟩
      rw [sysStep_pc0_ok hct hpck hins]
      refine ⟨⟨?_, ?_, ?_, ?_, ?_, ?_, ?_⟩, ?_, ?_⟩
      · dsimp only
        rw [List.map_set]
        dsimp only
        rw [set_self]
        · exact hmap
        · rw [List.getElem?_map, hct]
          rfl
      · dsimp only
        rw [List.pairwise_append]
        refine ⟨hidsP, List.pairwise_singleton _ _, ?_⟩
        intro a ha b hb
        rw [List.mem_singleton] at hb
        subst hb
        have h2 := (hrange a ha).2
        dsimp only
        omega
      · dsimp only
        rw [List.pairwise_append]
        refine ⟨hemP, List.pairwise_singleton _ _, ?_⟩
        intro a ha b hb
        rw [List.mem_singleton] at hb
        subst hb
        exact hfresh a ha
      · dsimp only
        intro u hu
        rw [List.mem_append] at hu
        rcases hu with hu | hu
        · have h2 := hrange u hu
          omega
        · rw [List.mem_singleton] at hu
          subst hu
          dsimp only
          omega
      · dsimp only
        omega
      · dsimp only
        rw [countP_set_flip s.threads c _ t _ hct (by rw [hpck]; rfl) rfl]
        push_cast
        omega
      · intro c2 hc2
        rw [List.length_set] at hc2
        by_cases hcc : c2 = c
        · subst hcc
          have hgt : (s.threads.set c2 ({ t with pc := 1 })).get
              ⟨c2, by rwa [List.length_set]⟩ = { t with pc := 1 } := by
            rw [List.get_eq_getElem]
            exact List.getElem_set_self _
          dsimp only at hgt ⊢
          rw [hgt]
          refine ⟨of_decide_eq_true rfl, ?_, ?_, ?_, ?_⟩
          · intro hpp
            exact absurd hpp (of_decide_eq_true rfl)
          · intro _
            refine ⟨{ id := s.db.nextId, email := t.email, created_at := now },
              List.mem_append_right _ (by simp), rfl, ?_⟩
            dsimp only
            rw [Function.update_same]
          · intro hpp
            exact absurd hpp (of_decide_eq_true rfl)
          · intro hpp
            exact absurd hpp (of_decide_eq_true rfl)
        · have hc2o : c2 < s.threads.length := hc2
          have hgt : (s.threads.set c ({ t with pc := 1 })).get
              ⟨c2, by rwa [List.length_set]⟩ = s.threads.get ⟨c2, hc2o⟩ := by
            rw [List.get_eq_getElem, List.get_eq_getElem]
            exact List.getElem_set_ne (fun h => hcc h.symm) _
          dsimp only at hgt ⊢
          rw [hgt]
          obtain ⟨o1, o2, o3, o4, o5⟩ := htinv c2 hc2o
          have hlidne : Function.update s.db.lid c s.db.nextId c2 = s.db.lid c2 :=
            Function.update_noteq hcc _ _
          refine ⟨o1, ?_, ?_, ?_, ?_⟩
          · intro hpp u hu
            rw [List.mem_append] at hu
            rcases hu with hu | hu
            · exact o2 hpp u hu
            · rw [List.mem_singleton] at hu
              subst hu
              dsimp only
              exact fun he => (email_ne_of_ne hmap hem hct hc2o hcc) he.symm
          · intro hpp
            obtain ⟨r, hr, hre, hrid⟩ := o3 hpp
            refine ⟨r, List.mem_append_left _ hr, hre, ?_⟩
            dsimp only
            rw [hlidne]
            exact hrid
          · intro hpp
            have h4 := o4 hpp
            dsimp only
            rw [hlidne]
            exact h4
          · intro hpp
            obtain ⟨u, hu1, hu2, hu3, hu4⟩ := o5 hpp
            refine ⟨u, hu1, hu2, List.mem_append_left _ hu3, ?_⟩
            dsimp only
            rw [hlidne]
            exact hu4
      · intro c2 hne
        unfold pcOf
        dsimp only
        rw [List.getElem?_set_ne (fun h => hne h.symm)]
      · intro hltc
        unfold pcOf
        dsimp only
        rw [List.getElem?_set_self hltc, hct]
        show (1 : Nat) = min 3 (t.pc + 1)
        omega
    · -- last_insert_rowid query step
      rw [sysStep_pc1 hct hpck]
      refine ⟨?_, ?_, ?_⟩
      · refine SysInv_set_thread
          ⟨hmap, hidsP, hemP, hrange, hn0, hcount, htinv⟩ hct rfl ?_ ?_
        · rw [hpck]
          rfl
        · refine ⟨of_decide_eq_true rfl, ?_, ?_, ?_, ?_⟩
          · intro hpp
            exact absurd hpp (of_decide_eq_true rfl)
          · intro _
            exact hins1 (by omega)
          · intro _
            rfl
          · intro hpp
            exact absurd hpp (of_decide_eq_true rfl)
      · intro c2 hne
        unfold pcOf
        dsimp only
        rw [List.getElem?_set_ne (fun h => hne h.symm)]
      · intro hltc
        unfold pcOf
        dsimp only
        rw [List.getElem?_set_self hltc, hct]
        show (2 : Nat) = min 3 (t.pc + 1)
        omega
    · -- primary-key fetch step
      have hlv : t.lidVal = s.db.lid c := hlid2 hpck
      obtain ⟨r, hr, hre, hrid⟩ := hins1 (by omega)
      have hbound := hrange r hr
      have hcle : s.threads.countP (fun t => decide (1 ≤ t.pc)) ≤
          s.threads.length := List.countP_le_length _
      have hfit1 : -2 ^ 31 ≤ r.id := by omega
      have hfit2 : r.id < 2 ^ 31 := by omega
      have hkey : i64_as_i32 t.lidVal = r.id := by
        rw [hlv, ← hrid]
        exact i64_as_i32_eq_self hfit1 hfit2
      have hfind : users_find (i64_as_i32 t.lidVal) s.db = some r := by
        rw [hkey]
        unfold users_find
        exact find_id_of_mem hidsP hr
      rw [sysStep_pc2_found hct hpck hfind]
      refine ⟨?_, ?_, ?_⟩
      · refine SysInv_set_thread
          ⟨hmap, hidsP, hemP, hrange, hn0, hcount, htinv⟩ hct rfl ?_ ?_
        · rw [hpck]
          rfl
        · refine ⟨of_decide_eq_true rfl, ?_, ?_, ?_, ?_⟩
          · intro hpp
            exact absurd hpp (of_decide_eq_true rfl)
          · intro _
            exact ⟨r, hr, hre, hrid⟩
          · intro hpp
            exact absurd hpp (of_decide_eq_true rfl)
          · intro _
            exact ⟨r, rfl, hre, hr, hrid⟩
      · intro c2 hne
        unfold pcOf
        dsimp only
        rw [List.getElem?_set_ne (fun h => hne h.symm)]
      · intro hltc
        unfold pcOf
        dsimp only
        rw [List.getElem?_set_self hltc, hct]
        show (3 : Nat) = min 3 (t.pc + 1)
        omega
    · -- finished caller
      have hpc3 : 3 ≤ t.pc := by omega
      rw [sysStep_pc3 hct hpc3]
      refine ⟨⟨hmap, hidsP, hemP, hrange, hn0, hcount, htinv⟩, fun _ _ => rfl, ?_⟩
      intro _
      rw [pcOf_eq_of_get hct]
      omega

/-- Running any schedule preserves the invariant, and each caller's pc
advances (capped at 3) by at least the number of times it is scheduled. -/
theorem sysRun_preserves (now n0 : Int) (emails : List String)
    (sched : List Nat) (s : Sys)
    (h0 : 0 ≤ n0) (hN : n0 + (emails.length : Int) ≤ 2 ^ 31)
    (hem : emails.Pairwise (fun a b => a ≠ b))
    (hinv : SysInv n0 emails s) :
    SysInv n0 emails (sysRun now sched s) ∧
    (∀ c, min 3 (pcOf s c + sched.count c) ≤ pcOf (sysRun now sched s) c) := by
  induction sched generalizing s with
  | nil =>
    refine ⟨hinv, fun c => ?_⟩
    show min 3 (pcOf s c + List.count c []) ≤ pcOf s c
    rw [List.count_nil]
    omega
  | cons a l ih =>
    have hstep := sysStep_preserves now n0 emails a s h0 hN hem hinv
    obtain ⟨hinv2, hother, hself⟩ := hstep
    obtain ⟨hinv3, hpc3⟩ := ih (sysStep now a s) hinv2
    refine ⟨hinv3, fun c => ?_⟩
    show min 3 (pcOf s c + List.count c (a :: l)) ≤
      pcOf (sysRun now l (sysStep now a s)) c
    rcases eq_or_ne c a with rfl | hne
    · have hcnt : (c :: l).count c = l.count c + 1 := List.count_cons_self c l
      have h2 := hpc3 c
      by_cases hlt : c < s.threads.length
      · have h1 := hself hlt
        rw [h1] at h2
        rw [hcnt]
        omega
      · have hnone : s.threads[c]? = none := List.getElem?_eq_none (by omega)
        have hpcs : pcOf s c = 3 := by
          unfold pcOf
          rw [hnone]
          rfl
        rw [sysStep_none hnone] at h2 ⊢
        rw [hcnt, hpcs]
        omega
    · have hcnt : (a :: l).count c = l.count c := by
        rw [List.count_cons]
        have : ¬((a == c) = true) := by
          simp only [beq_iff_eq]
          exact fun h => hne h.symm
        simp [this]
      have h2 := hpc3 c
      rw [hother c hne] at h2
      rw [hcnt]
      exact h2

/-- The initial system satisfies the invariant. -/
theorem sysInit_inv (n0 : Int) (emails : List String) :
    SysInv n0 emails (sysInit emails (freshDb n0)) := by
  refine ⟨?_, ?_, ?_, ?_, ?_, ?_, ?_⟩
  · unfold sysInit
    dsimp only
    rw [List.map_map]
    exact List.map_id emails
  · exact List.Pairwise.nil
  · exact List.Pairwise.nil
  · intro u hu
    cases hu
  · exact le_refl n0
  · unfold sysInit freshDb
    dsimp only
    rw [List.countP_eq_zero.mpr]
    · simp
    · intro t ht
      rw [List.mem_map] at ht
      obtain ⟨e, -, he⟩ := ht
      subst he
      exact of_decide_eq_true rfl
  · intro c hc
    unfold sysInit at hc ⊢
    dsimp only at hc ⊢
    have h2 : c < emails.length := by simpa using hc
    have hget : (emails.map (fun e =>
        ({ email := e, pc := 0, lidVal := 0, result := none } : ThreadSt))).get
        ⟨c, hc⟩ = ThreadSt.mk (emails.get ⟨c, h2⟩) 0 0 none := by
      rw [List.get_eq_getElem, List.get_eq_getElem, List.getElem_map]
    rw [hget]
    refine ⟨of_decide_eq_true rfl, ?_, ?_, ?_, ?_⟩
    · intro _ u hu
      cases hu
    · intro hpp
      exact absurd hpp (of_decide_eq_true rfl)
    · intro hpp
      exact absurd hpp (of_decide_eq_true rfl)
    · intro hpp
      exact absurd hpp (of_decide_eq_true rfl)

/-- C2 (counterexample): the claim fails as stated for arbitrary stores,
because of the `as i32` narrowing: with the autoincrement counter at 2^31,
a single caller (N = 1, its own connection, a fresh email) runs its Create
to completion uninterleaved and still fails with NotFound instead of
succeeding with its own row. -/
theorem concurrent_create_overflow_call_fails :
    (sysRun 0 [0, 0, 0] (sysInit ["a"] (freshDb (2 ^ 31)))).threads =
      [{ email := "a", pc := 3, lidVal := 2 ^ 31,
         result := some (.error .notFound) }] := by
  decide

/-- C2 (amended): provided every generated rowid fits in i32 (0 ≤ n0 and
n0 + N ≤ 2^31), for every N concurrent callers — caller `c` on its own
connection `c`, each calling Create with a distinct email, their SQL
statements interleaved by an arbitrary schedule that runs each caller's
three statements — every caller succeeds and observes exactly the row it
inserted: its result is Ok of a user carrying its own email (of which the
final table holds exactly one row) and whose id is its connection's
last-insert-rowid. -/
theorem concurrent_creates_return_own_rows
    (now n0 : Int) (emails : List String) (sched : List Nat)
    (hem : emails.Pairwise (fun a b => a ≠ b))
    (h0 : 0 ≤ n0) (hN : n0 + (emails.length : Int) ≤ 2 ^ 31)
    (hsched : ∀ c, c < emails.length → 3 ≤ sched.count c) :
    ∀ c, ∀ hc : c < emails.length,
      ∃ t u,
        (sysRun now sched (sysInit emails (freshDb n0))).threads[c]? = some t ∧
        t.result = some (.ok u) ∧
        u.email = emails.get ⟨c, hc⟩ ∧
        u ∈ (sysRun now sched (sysInit emails (freshDb n0))).db.rows ∧
        u.id = (sysRun now sched (sysInit emails (freshDb n0))).db.lid c ∧
        (sysRun now sched (sysInit emails (freshDb n0))).db.rows.countP
          (fun v => v.email == emails.get ⟨c, hc⟩) = 1 := by
  intro c hc
  obtain ⟨hfin, hpc⟩ := sysRun_preserves now n0 emails sched
    (sysInit emails (freshDb n0)) h0 hN hem (sysInit_inv n0 emails)
  obtain ⟨hmap, hidsP, hemP, hrange, hn0, hcount, htinv⟩ := hfin
  have hlenF : (sysRun now sched (sysInit emails (freshDb n0))).threads.length =
      emails.length := by
    conv_rhs => rw [← hmap]
    rw [List.length_map]
  have hpc0 : pcOf (sysInit emails (freshDb n0)) c = 0 := by
    unfold pcOf sysInit
    dsimp only
    rw [List.getElem?_map, List.getElem?_eq_getElem hc]
    rfl
  have h3 : 3 ≤ pcOf (sysRun now sched (sysInit emails (freshDb n0))) c := by
    have h2 := hpc c
    rw [hpc0] at h2
    have hcnt := hsched c hc
    omega
  have hcF : c < (sysRun now sched (sysInit emails (freshDb n0))).threads.length := by
    omega
  have hct : (sysRun now sched (sysInit emails (freshDb n0))).threads[c]? =
      some ((sysRun now sched (sysInit emails (freshDb n0))).threads.get ⟨c, hcF⟩) := by
    rw [List.get_eq_getElem]
    exact List.getElem?_eq_getElem hcF
  have htI := htinv c hcF
  have hpct : ((sysRun now sched (sysInit emails (freshDb n0))).threads.get
      ⟨c, hcF⟩).pc = 3 := by
    have hle := htI.1
    have := pcOf_eq_of_get hct
    omega
  obtain ⟨u, hres, hmail, humem, huid⟩ := htI.2.2.2.2 hpct
  have hemc : ((sysRun now sched (sysInit emails (freshDb n0))).threads.get
      ⟨c, hcF⟩).email = emails.get ⟨c, hc⟩ := by
    have h4 := congrArg (fun l => l[c]?) hmap
    dsimp only at h4
    rw [List.getElem?_map, hct] at h4
    rw [List.getElem?_eq_getElem hc] at h4
    rw [List.get_eq_getElem]
    injection h4
  refine ⟨_, u, hct, hres, by rw [hmail, hemc], humem, huid, ?_⟩
  have hone := countP_email_eq_one hemP humem
  have hue : u.email = emails.get ⟨c, hc⟩ := by rw [hmail, hemc]
  rw [← hue]
  exact hone

/-- C2 (witness): one caller on a fresh store, scheduled for its three
statements, gets back exactly its own row. -/
theorem concurrent_creates_return_own_rows_witness :
    ∃ t u,
      (sysRun 7 [0, 0, 0] (sysInit ["q"] (freshDb 1))).threads[0]? = some t ∧
      t.result = some (.ok u) ∧
      u.email = (["q"] : List String).get ⟨0, by decide⟩ ∧
      u ∈ (sysRun 7 [0, 0, 0] (sysInit ["q"] (freshDb 1))).db.rows ∧
      u.id = (sysRun 7 [0, 0, 0] (sysInit ["q"] (freshDb 1))).db.lid 0 ∧
      (sysRun 7 [0, 0, 0] (sysInit ["q"] (freshDb 1))).db.rows.countP
        (fun v => v.email == (["q"] : List String).get ⟨0, by decide⟩) = 1 :=
  concurrent_creates_return_own_rows 7 1 ["q"] [0, 0, 0]
    (by decide) (by decide) (by decide)
    (by
      intro c hcl
      have : c = 0 := by
        simp only [List.length_singleton] at hcl
        omega
      subst this
      decide)
    0 (by decide)
